import Mathlib

/-!
Verification of `src/lib/rt-numa.c` (rt-tests-analyze).

A libnuma `struct bitmask` and a `cpu_set_t` are both modelled as the set of
their set bit positions, a `Finset ℕ`.  The libnuma / glibc primitives the
file uses are embedded one to one, and each C function of the file becomes a
Lean function over those primitives.  C machine integers are modelled as
`Int` (for `int` values) and `Nat` (for `unsigned int` values), with the
implicit C conversion from `int` to `unsigned int` made explicit as a
reduction modulo 2^32, and the C `%` on two `int`s rendered as `Int.tmod`
(truncated remainder, as C99 specifies).
-/

namespace RtNuma

/-- A libnuma `struct bitmask` / glibc `cpu_set_t`: the set of set bits. -/
abbrev Bitmask := Finset ℕ

/-- `numa_bitmask_weight`: number of set bits. -/
def numa_bitmask_weight (mask : Bitmask) : ℕ := mask.card

/-- `numa_bitmask_isbitset`: value of bit `i`. -/
def numa_bitmask_isbitset (mask : Bitmask) (i : ℕ) : Bool := decide (i ∈ mask)

/-- `numa_bitmask_clearbit`: clear bit `i`. -/
def numa_bitmask_clearbit (mask : Bitmask) (i : ℕ) : Bitmask := mask.erase i

/-- `CPU_COUNT`: number of set bits of a `cpu_set_t`. -/
def CPU_COUNT (s : Bitmask) : ℕ := s.card

/-- `CPU_ISSET`: membership test on a `cpu_set_t`. -/
def CPU_ISSET (i : ℕ) (s : Bitmask) : Bool := decide (i ∈ s)

/-- The implicit C conversion of an `int` value to `unsigned int`
(reduction modulo 2^32), applied by the usual arithmetic conversions in
`thread_num % num_cpus` of `cpu_for_thread_sp`, where `thread_num` is
`int` and `num_cpus` is `unsigned int`. -/
def toUnsigned (t : Int) : ℕ := (t.emod (2 ^ 32)).toNat

/-- Outcome of `cpu_for_thread_sp`: either the process dies through
`fatal(msg)`, or a cpu id is returned from inside the scan loop, or the
loop falls through, `warn("Bug in cpu mask handling code.\n")` runs and 0
is returned. -/
inductive CpuResult where
  | fatal (msg : String) : CpuResult
  | found (cpu : ℕ) : CpuResult
  | fallback : CpuResult
deriving DecidableEq, Repr

/-- The scan loop of `cpu_for_thread_sp` (lines 65-73):
`for (i = 0, cpu = 0; i < max_cpus; i++) if (isbitset(cpumask,i)) { if (cpu == m) return i; cpu++; }`.
`i` and `cpu` are `unsigned int`; `remaining` counts the iterations left,
so the loop body runs for indices `i, i+1, ..., i+remaining-1`. -/
def scanFrom (mask : Bitmask) (m : ℕ) : ℕ → ℕ → ℕ → Option ℕ
  | _, _, 0 => none
  | i, cpu, r + 1 =>
    if numa_bitmask_isbitset mask i then
      if cpu = m then some i
      else scanFrom mask m (i + 1) (cpu + 1) r
    else scanFrom mask m (i + 1) cpu r

/-- `cpu_for_thread_sp(int thread_num, int max_cpus, struct bitmask *cpumask)`
(lines 53-76). -/
def cpu_for_thread_sp (thread_num : Int) (max_cpus : ℕ) (cpumask : Bitmask) :
    CpuResult :=
  let num_cpus := numa_bitmask_weight cpumask
  if num_cpus = 0 then
    CpuResult.fatal "No allowable cpus to run on"
  else
    let m := toUnsigned thread_num % num_cpus
    match scanFrom cpumask m 0 0 max_cpus with
    | some i => CpuResult.found i
    | none => CpuResult.fallback

/-- Outcome of `cpu_for_thread_ua`: `undef` marks the execution that
reaches `thread_num % num_cpus` with `num_cpus == 0`, which is undefined
behavior in C (there is no guard in the source); the other constructors
are as in `CpuResult`. -/
inductive UaResult where
  | undef : UaResult
  | found (cpu : ℕ) : UaResult
  | fallback : UaResult
deriving DecidableEq, Repr

/-- The scan loop of `cpu_for_thread_ua` (lines 93-101); here `i`, `cpu`
and `m` are signed `int`, and `cpu` is compared with `m` as `Int`. -/
def scanFromInt (cpuset : Bitmask) (m : Int) : ℕ → Int → ℕ → Option ℕ
  | _, _, 0 => none
  | i, cpu, r + 1 =>
    if CPU_ISSET i cpuset then
      if cpu = m then some i
      else scanFromInt cpuset m (i + 1) (cpu + 1) r
    else scanFromInt cpuset m (i + 1) cpu r

/-- `cpu_for_thread_ua(int thread_num, int max_cpus)` (lines 79-105).
The `sched_getaffinity` call is modelled by passing the OS-reported
affinity set `cpuset` as a parameter (the function body only runs when
that call succeeded; its failure path is `fatal` before any of the logic
below).  All of `num_cpus`, `m`, `cpu` are C `int`s, so
`m = thread_num % num_cpus` is the truncated remainder, and when
`num_cpus == 0` the expression is undefined behavior, modelled by
`UaResult.undef`. -/
def cpu_for_thread_ua (thread_num : Int) (max_cpus : ℕ) (cpuset : Bitmask) :
    UaResult :=
  let num_cpus : Int := (CPU_COUNT cpuset : Int)
  if num_cpus = 0 then
    UaResult.undef
  else
    let m := thread_num.tmod num_cpus
    match scanFromInt cpuset m 0 0 max_cpus with
    | some i => UaResult.found i
    | none => UaResult.fallback

/-- Outcome of `get_available_cpus`: a count, or death through `fatal`
when `cpumask == NULL` and `sched_getaffinity` fails. -/
inductive CountResult where
  | fatal (msg : String) : CountResult
  | count (n : ℕ) : CountResult
deriving DecidableEq, Repr

/-- `get_available_cpus(struct bitmask *cpumask)` (lines 36-51).  The
`NULL`-ness of the argument is an `Option`; the `sched_getaffinity` call
is modelled by the parameter `osAffinity`, `none` standing for a failing
call (negative return) and `some s` for success filling the set `s`. -/
def get_available_cpus (cpumask : Option Bitmask) (osAffinity : Option Bitmask) :
    CountResult :=
  match cpumask with
  | some mask => CountResult.count (numa_bitmask_weight mask)
  | none =>
    match osAffinity with
    | none => CountResult.fatal "sched_getaffinity failed"
    | some s => CountResult.count (CPU_COUNT s)

/-- The loop of `use_current_cpuset` (lines 135-146): for
`i, i+1, ..., i+remaining-1`, clear bit `i` of `cpumask` unless it is set
in both `cpumask` and `curmask`. -/
def clearLoop (curmask : Bitmask) : Bitmask → ℕ → ℕ → Bitmask
  | cpumask, _, 0 => cpumask
  | cpumask, i, r + 1 =>
    let cpumask' :=
      if ¬ numa_bitmask_isbitset cpumask i ∨ ¬ numa_bitmask_isbitset curmask i then
        numa_bitmask_clearbit cpumask i
      else cpumask
    clearLoop curmask cpumask' (i + 1) r

/-- `use_current_cpuset(int max_cpus, struct bitmask *cpumask)`
(lines 112-151).  The runtime affinity mask fetched through
`numa_sched_getaffinity(getpid(), curmask)` is passed as the parameter
`curmask`; the function returns the final contents of the caller-owned
`cpumask`. -/
def use_current_cpuset (max_cpus : ℕ) (cpumask : Bitmask) (curmask : Bitmask) :
    Bitmask :=
  clearLoop curmask cpumask 0 max_cpus

/-- Linux `ENOMEM`. -/
def ENOMEM : Int := 12

/-- Observable outcome of `parse_cpumask`: the returned `int`, what was
stored through the out-pointer `cpumask` (`none` = the pointer was never
written, `some v` = it was assigned `v`, where `v = none` models storing
`NULL`), and the number of masks allocated by the call that were neither
freed nor handed to the caller (a positive value would be a leak). -/
structure ParseOutcome where
  ret : Int
  out : Option (Option Bitmask)
  leaked : ℕ
deriving DecidableEq

/-- `parse_cpumask(char *str, int max_cpus, struct bitmask **cpumask)`
(lines 159-195).  The external parser `numa_parse_cpustring_all(str)` is
modelled by the parameter `parsed` (`none` = the parser returned `NULL`);
`hasModifier` models `strchr(str, 0x21) != NULL || strchr(str, 0x2b) != NULL`
(presence of the characters `!` or `+` in `str`); `curmask` is the runtime
affinity set that `use_current_cpuset` would fetch. -/
def parse_cpumask (parsed : Option Bitmask) (hasModifier : Bool)
    (max_cpus : ℕ) (curmask : Bitmask) : ParseOutcome :=
  match parsed with
  | none => { ret := -ENOMEM, out := none, leaked := 0 }
  | some mask =>
    if numa_bitmask_weight mask = 0 then
      { ret := 0, out := some none, leaked := 0 }
    else
      let mask' := if hasModifier then use_current_cpuset max_cpus mask curmask
                   else mask
      { ret := 0, out := some (some mask'), leaked := 0 }

/-! ## Lemmas about the scan loops -/

/-- The scan loop of `cpu_for_thread_sp`, started at index `i` with running
count `cpu ≤ m` and `remaining` iterations left, returns the element at
position `m - cpu` of the ascending list of mask members among
`i, ..., i + remaining - 1` (and `none` when there is no such position). -/
lemma scanFrom_eq (mask : Bitmask) (m : ℕ) :
    ∀ (r i cpu : ℕ), cpu ≤ m →
      scanFrom mask m i cpu r =
        ((List.range' i r).filter (numa_bitmask_isbitset mask))[m - cpu]? := by
  intro r
  induction r with
  | zero => intro i cpu _; simp [scanFrom]
  | succ r ih =>
    intro i cpu hcm
    rw [List.range'_succ, List.filter_cons]
    by_cases hb : i ∈ mask
    · have hbit : numa_bitmask_isbitset mask i = true := by
        simp [numa_bitmask_isbitset, hb]
      rw [scanFrom, if_pos hbit, hbit]
      by_cases heq : cpu = m
      · subst heq
        simp
      · have hlt : cpu < m := lt_of_le_of_ne hcm heq
        rw [if_neg heq, ih (i + 1) (cpu + 1) hlt]
        have hms : m - cpu = (m - (cpu + 1)) + 1 := by omega
        simp [hms]
    · have hbit : numa_bitmask_isbitset mask i = false := by
        simp [numa_bitmask_isbitset, hb]
      rw [scanFrom, if_neg (by simp [hbit]), hbit]
      simp only [Bool.false_eq_true, if_false]
      exact ih (i + 1) cpu hcm

/-- When every member of `mask` lies below `n`, the members of `mask` among
`0, ..., n-1` in ascending order are exactly `mask.sort (· ≤ ·)`. -/
lemma filter_range_eq_sort (mask : Bitmask) (n : ℕ) (h : ∀ c ∈ mask, c < n) :
    (List.range n).filter (numa_bitmask_isbitset mask) = mask.sort (· ≤ ·) := by
  refine List.eq_of_perm_of_sorted ?_
    (List.Sorted.filter _ ((List.pairwise_lt_range n).imp Nat.le_of_lt))
    (mask.sort_sorted _)
  refine (List.perm_ext_iff_of_nodup ((List.nodup_range n).filter _)
    (mask.sort_nodup _)).2 ?_
  intro a
  simp only [List.mem_filter, List.mem_range, Finset.mem_sort,
    numa_bitmask_isbitset, decide_eq_true_eq]
  exact ⟨fun ha => ha.2, fun ha => ⟨h a ha, ha⟩⟩

/-- Full run of the `cpu_for_thread_sp` scan loop: with `m` below the
cardinality and all members below `max_cpus`, it returns position `m` of
the ascending list of members. -/
lemma scanFrom_run (mask : Bitmask) (max_cpus m : ℕ) (hm : m < mask.card)
    (h : ∀ c ∈ mask, c < max_cpus) :
    scanFrom mask m 0 0 max_cpus = some ((mask.sort (· ≤ ·)).getD m 0) := by
  rw [scanFrom_eq mask m max_cpus 0 0 (Nat.zero_le m), ← List.range_eq_range',
    filter_range_eq_sort mask max_cpus h]
  have hlen : m < (mask.sort (· ≤ ·)).length := by
    rw [Finset.length_sort]; exact hm
  simp [List.getElem?_eq_getElem hlen]

/-- Position `m` of the ascending member list is a member of the mask. -/
lemma sort_getD_mem (mask : Bitmask) (m : ℕ) (hm : m < mask.card) :
    (mask.sort (· ≤ ·)).getD m 0 ∈ mask := by
  have hlen : m < (mask.sort (· ≤ ·)).length := by
    rw [Finset.length_sort]; exact hm
  rw [List.getD_eq_getElem?_getD, List.getElem?_eq_getElem hlen]
  exact (Finset.mem_sort _).1 (List.getElem_mem hlen)

/-- The `cpu_for_thread_ua` scan loop never returns when the target `m` is
negative, since its running count starts at a non-negative value and only
increases. -/
lemma scanFromInt_none_of_neg (cpuset : Bitmask) (m : Int) (hm : m < 0) :
    ∀ (r i : ℕ) (cpu : Int), 0 ≤ cpu → scanFromInt cpuset m i cpu r = none := by
  intro r
  induction r with
  | zero => intro i cpu _; simp [scanFromInt]
  | succ r ih =>
    intro i cpu hcpu
    rw [scanFromInt]
    by_cases hb : CPU_ISSET i cpuset = true
    · rw [if_pos hb, if_neg (by omega)]
      exact ih (i + 1) (cpu + 1) (by omega)
    · rw [if_neg hb]
      exact ih (i + 1) cpu hcpu

/-- The truncated remainder of a negative `Int` by a natural number that
does not divide it is negative. -/
lemma tmod_neg_of_neg_not_dvd {t : Int} {n : ℕ} (ht : t < 0)
    (hnd : ¬ ((n : Int) ∣ t)) : t.tmod (n : Int) < 0 := by
  have hne : t.tmod (n : Int) ≠ 0 := fun h0 => hnd (Int.dvd_of_tmod_eq_zero h0)
  cases t with
  | ofNat k => exact absurd ht (by simp)
  | negSucc k =>
    have heq : (Int.negSucc k).tmod (n : Int) = -(((k + 1) % n : ℕ) : Int) :=
      rfl
    rw [heq] at hne ⊢
    generalize ((k + 1) % n : ℕ) = q at hne ⊢
    omega

/-- The conversion `toUnsigned` is the identity on `int` values that are
non-negative (every non-negative `int` is below 2^31 < 2^32). -/
lemma toUnsigned_eq_toNat {t : Int} (h0 : 0 ≤ t) (h1 : t < 2 ^ 32) :
    toUnsigned t = t.toNat := by
  have he : t % (2 ^ 32) = t := Int.emod_eq_of_lt h0 h1
  calc toUnsigned t = (t % 2 ^ 32).toNat := rfl
  _ = t.toNat := by rw [he]

/-- On a mask of positive weight whose members all lie below `max_cpus`,
`cpu_for_thread_sp` returns position `toUnsigned thread_num % card` of the
ascending member list. -/
lemma cpu_for_thread_sp_eq_found (M : Bitmask) (max_cpus : ℕ) (t : Int)
    (hN : 1 ≤ M.card) (hlt : ∀ c ∈ M, c < max_cpus) :
    cpu_for_thread_sp t max_cpus M =
      CpuResult.found ((M.sort (· ≤ ·)).getD (toUnsigned t % M.card) 0) := by
  have hm : toUnsigned t % M.card < M.card := Nat.mod_lt _ (by omega)
  simp only [cpu_for_thread_sp, numa_bitmask_weight]
  rw [if_neg (by omega), scanFrom_run M max_cpus (toUnsigned t % M.card) hm hlt]

/-- Membership in the state of the `use_current_cpuset` loop after the
iterations for indices `i, ..., i + r - 1` have run: a bit stays set iff
it was set and, in case its index was visited, it is also set in the
runtime affinity mask. -/
lemma clearLoop_mem (curmask : Bitmask) :
    ∀ (r : ℕ) (cpumask : Bitmask) (i j : ℕ),
      (j ∈ clearLoop curmask cpumask i r ↔
        j ∈ cpumask ∧ (i ≤ j → j < i + r → j ∈ curmask)) := by
  intro r
  induction r with
  | zero =>
    intro cpumask i j
    rw [clearLoop]
    exact ⟨fun hj => ⟨hj, fun _ h2 => absurd h2 (by omega)⟩, fun hj => hj.1⟩
  | succ r ih =>
    intro cpumask i j
    simp only [clearLoop]
    rw [ih]
    have hif : j ∈ (if ¬ numa_bitmask_isbitset cpumask i ∨
          ¬ numa_bitmask_isbitset curmask i
        then numa_bitmask_clearbit cpumask i else cpumask) ↔
        j ∈ cpumask ∧ (j = i → i ∈ cpumask ∧ i ∈ curmask) := by
      by_cases hc : ¬ numa_bitmask_isbitset cpumask i ∨
          ¬ numa_bitmask_isbitset curmask i
      · rw [if_pos hc]
        simp only [numa_bitmask_isbitset, decide_eq_true_eq,
          numa_bitmask_clearbit, Finset.mem_erase] at hc ⊢
        constructor
        · rintro ⟨hne, hj⟩
          exact ⟨hj, fun h => absurd h hne⟩
        · rintro ⟨hj, himp⟩
          refine ⟨fun hji => ?_, hj⟩
          rcases hc with hc | hc
          · exact hc (himp hji).1
          · exact hc (himp hji).2
      · rw [if_neg hc]
        push_neg at hc
        simp only [numa_bitmask_isbitset, decide_eq_true_eq] at hc
        exact ⟨fun hj => ⟨hj, fun _ => hc⟩, fun hj => hj.1⟩
    rw [hif]
    constructor
    · rintro ⟨⟨hj, hji⟩, himp⟩
      refine ⟨hj, fun ha hb => ?_⟩
      by_cases hq : j = i
      · rw [hq]; exact (hji hq).2
      · exact himp (by omega) (by omega)
    · rintro ⟨hj, himp⟩
      refine ⟨⟨hj, fun hq => ?_⟩, fun ha hb => himp (by omega) (by omega)⟩
      subst hq
      exact ⟨hj, himp (Nat.le_refl j) (by omega)⟩

/-! ## Claim theorems -/

/-- C1: for every mask `M` of cardinality `N ≥ 1` whose members all lie in
`[0, max_cpus)` and every non-negative thread index `t` (a C `int`, hence
below 2^31), `cpu_for_thread_sp t max_cpus M` returns the `(t mod N)`-th
member of `M` in ascending CPU-id order; in particular at `t = 0` it
returns the lowest-numbered member of `M`. -/
theorem sp_nth_member_asc (M : Bitmask) (max_cpus : ℕ) (t : Int)
    (hN : 1 ≤ M.card) (hlt : ∀ c ∈ M, c < max_cpus)
    (ht0 : 0 ≤ t) (ht1 : t < 2 ^ 31) :
    cpu_for_thread_sp t max_cpus M =
      CpuResult.found ((M.sort (· ≤ ·)).getD (t.toNat % M.card) 0) ∧
    cpu_for_thread_sp 0 max_cpus M =
      CpuResult.found (M.min' (Finset.card_pos.mp hN)) := by
  have h1 := cpu_for_thread_sp_eq_found M max_cpus t hN hlt
  rw [toUnsigned_eq_toNat ht0 (by omega)] at h1
  refine ⟨h1, ?_⟩
  have h0 := cpu_for_thread_sp_eq_found M max_cpus 0 hN hlt
  have hz0 : toUnsigned 0 = 0 := by decide
  have hz : toUnsigned 0 % M.card = 0 := by rw [hz0]; exact Nat.zero_mod _
  rw [hz] at h0
  have hlen : 0 < (M.sort (· ≤ ·)).length := by rw [Finset.length_sort]; omega
  have hmin : (M.sort (· ≤ ·)).getD 0 0 = M.min' (Finset.card_pos.mp hN) := by
    rw [List.getD_eq_getElem?_getD, List.getElem?_eq_getElem hlen,
      Option.getD_some]
    exact Finset.sorted_zero_eq_min'
  rw [h0, hmin]

/-- C1 witness: at `M = \x7b1, 2, 4, 5\x7d`, `max_cpus = 8`, `t = 2`, thread 2
is placed on CPU 4, and thread 0 on CPU 1, the lowest member. -/
theorem sp_nth_member_asc_w :
    cpu_for_thread_sp 2 8 {1, 2, 4, 5} =
      CpuResult.found ((({1, 2, 4, 5} : Finset ℕ).sort (· ≤ ·)).getD
        ((2 : Int).toNat % ({1, 2, 4, 5} : Finset ℕ).card) 0) ∧
    cpu_for_thread_sp 0 8 {1, 2, 4, 5} =
      CpuResult.found (({1, 2, 4, 5} : Finset ℕ).min' (by decide)) :=
  sp_nth_member_asc {1, 2, 4, 5} 8 2 (by decide) (by decide) (by decide)
    (by decide)

/-- C2: for every mask `M` of cardinality `N ≥ 1` over `[0, max_cpus)` and
every non-negative thread index `t` with `t + N` still a valid `int`,
`cpu_for_thread_sp` returns a member of `M`, and returns the same member at
`t` and at `t + N` (round-robin periodicity with period `N`). -/
theorem sp_member_periodic (M : Bitmask) (max_cpus : ℕ) (t : Int)
    (hN : 1 ≤ M.card) (hlt : ∀ c ∈ M, c < max_cpus)
    (ht0 : 0 ≤ t) (ht1 : t + M.card < 2 ^ 31) :
    ∃ c ∈ M, cpu_for_thread_sp t max_cpus M = CpuResult.found c ∧
      cpu_for_thread_sp (t + M.card) max_cpus M = CpuResult.found c := by
  have h1 := cpu_for_thread_sp_eq_found M max_cpus t hN hlt
  have h2 := cpu_for_thread_sp_eq_found M max_cpus (t + M.card) hN hlt
  have e2 : toUnsigned (t + M.card) = t.toNat + M.card := by
    rw [toUnsigned_eq_toNat (by omega) (by omega)]
    omega
  rw [toUnsigned_eq_toNat ht0 (by omega)] at h1
  rw [e2, Nat.add_mod_right] at h2
  exact ⟨_, sort_getD_mem M _ (Nat.mod_lt _ (by omega)), h1, h2⟩

/-- C2 witness: at `M = \x7b1, 2, 4, 5\x7d` (N = 4), `max_cpus = 8`, `t = 1`,
threads 1 and 5 are both placed on CPU 2, a member of `M`. -/
theorem sp_member_periodic_w :
    ∃ c ∈ ({1, 2, 4, 5} : Finset ℕ),
      cpu_for_thread_sp 1 8 {1, 2, 4, 5} = CpuResult.found c ∧
      cpu_for_thread_sp (1 + ({1, 2, 4, 5} : Finset ℕ).card) 8 {1, 2, 4, 5} =
        CpuResult.found c :=
  sp_member_periodic {1, 2, 4, 5} 8 1 (by decide) (by decide) (by decide)
    (by decide)

/-- C3: on a mask of cardinality 0, `cpu_for_thread_sp` dies through
`fatal("No allowable cpus to run on\n")` and returns no value, for every
thread index and every `max_cpus`. -/
theorem sp_empty_mask_fatal (M : Bitmask) (max_cpus : ℕ) (t : Int)
    (h : numa_bitmask_weight M = 0) :
    cpu_for_thread_sp t max_cpus M =
      CpuResult.fatal "No allowable cpus to run on" := by
  simp [cpu_for_thread_sp, h]

/-- C3 witness: the empty mask at `t = 3`, `max_cpus = 8`. -/
theorem sp_empty_mask_fatal_w :
    cpu_for_thread_sp 3 8 (∅ : Finset ℕ) =
      CpuResult.fatal "No allowable cpus to run on" :=
  sp_empty_mask_fatal ∅ 8 3 (by decide)

/-- C4: `cpu_for_thread_ua` has no guard on the cardinality of the
OS-reported set: when that set is empty it reaches
`thread_num % num_cpus` with `num_cpus == 0`, which is undefined behavior,
whereas `cpu_for_thread_sp` on an empty mask dies through a clean
`fatal` diagnostic. -/
theorem ua_zero_count_undefined (cpuset : Bitmask) (max_cpus : ℕ) (t : Int)
    (h : CPU_COUNT cpuset = 0) :
    cpu_for_thread_ua t max_cpus cpuset = UaResult.undef ∧
    cpu_for_thread_sp t max_cpus cpuset =
      CpuResult.fatal "No allowable cpus to run on" := by
  have hc : cpuset.card = 0 := h
  exact ⟨by simp [cpu_for_thread_ua, CPU_COUNT, hc],
    by simp [cpu_for_thread_sp, numa_bitmask_weight, hc]⟩

/-- C4 witness: the empty OS-reported set at `t = 5`, `max_cpus = 4`. -/
theorem ua_zero_count_undefined_w :
    cpu_for_thread_ua 5 4 (∅ : Finset ℕ) = UaResult.undef ∧
    cpu_for_thread_sp 5 4 (∅ : Finset ℕ) =
      CpuResult.fatal "No allowable cpus to run on" :=
  ua_zero_count_undefined ∅ 4 5 (by decide)

/-- C5: whenever the mask has cardinality at least 1 (and, as the mask
representation guarantees, its members lie below `max_cpus`), the scan of
`cpu_for_thread_sp` returns a mask member for every thread index, and the
warn-and-return-0 fallback branch is unreachable. -/
theorem sp_no_fallback (M : Bitmask) (max_cpus : ℕ) (t : Int)
    (hN : 1 ≤ M.card) (hlt : ∀ c ∈ M, c < max_cpus) :
    (∃ c ∈ M, cpu_for_thread_sp t max_cpus M = CpuResult.found c) ∧
    cpu_for_thread_sp t max_cpus M ≠ CpuResult.fallback := by
  have h1 := cpu_for_thread_sp_eq_found M max_cpus t hN hlt
  refine ⟨⟨_, sort_getD_mem M _ (Nat.mod_lt _ (by omega)), h1⟩, ?_⟩
  rw [h1]
  simp

/-- C5 witness: `M = \x7b0, 3\x7d`, `max_cpus = 4`, `t = -7` (the scan finds a
member even at a negative thread index, after the `int` to `unsigned int`
conversion). -/
theorem sp_no_fallback_w :
    (∃ c ∈ ({0, 3} : Finset ℕ),
      cpu_for_thread_sp (-7) 4 {0, 3} = CpuResult.found c) ∧
    cpu_for_thread_sp (-7) 4 {0, 3} ≠ CpuResult.fallback :=
  sp_no_fallback {0, 3} 4 (-7) (by decide) (by decide)

/-- C6: after `use_current_cpuset`, a CPU id in `[0, max_cpus)` is in the
caller's mask iff it was in both the input mask and the freshly queried
runtime affinity mask, and the result is a subset of the input mask, for
all inputs. -/
theorem use_current_cpuset_and (max_cpus : ℕ) (cpumask curmask : Bitmask) :
    (∀ i, i < max_cpus →
      (i ∈ use_current_cpuset max_cpus cpumask curmask ↔
        i ∈ cpumask ∧ i ∈ curmask)) ∧
    use_current_cpuset max_cpus cpumask curmask ⊆ cpumask := by
  constructor
  · intro i hi
    rw [use_current_cpuset, clearLoop_mem]
    exact ⟨fun hj => ⟨hj.1, hj.2 (Nat.zero_le i) (by omega)⟩,
      fun hj => ⟨hj.1, fun _ _ => hj.2⟩⟩
  · intro j hj
    rw [use_current_cpuset, clearLoop_mem] at hj
    exact hj.1

/-- C6 witness: `max_cpus = 8`, input mask `\x7b1, 2, 4, 5\x7d`, runtime mask
`\x7b2, 3, 5, 7\x7d`: bit 2 survives (in both), and the result is contained in
the input mask. -/
theorem use_current_cpuset_and_w :
    (2 ∈ use_current_cpuset 8 {1, 2, 4, 5} {2, 3, 5, 7} ↔
      2 ∈ ({1, 2, 4, 5} : Finset ℕ) ∧ 2 ∈ ({2, 3, 5, 7} : Finset ℕ)) ∧
    use_current_cpuset 8 {1, 2, 4, 5} {2, 3, 5, 7} ⊆ {1, 2, 4, 5} :=
  ⟨(use_current_cpuset_and 8 {1, 2, 4, 5} {2, 3, 5, 7}).1 2 (by decide),
    (use_current_cpuset_and 8 {1, 2, 4, 5} {2, 3, 5, 7}).2⟩

/-- C7: when the parsed mask has zero members, `parse_cpumask` returns 0,
stores `NULL` through the out-pointer, and has freed the mask it
allocated, leaving no outstanding allocation. -/
theorem parse_cpumask_zero_weight (mask : Bitmask) (hasModifier : Bool)
    (max_cpus : ℕ) (curmask : Bitmask) (h : numa_bitmask_weight mask = 0) :
    parse_cpumask (some mask) hasModifier max_cpus curmask =
      { ret := 0, out := some none, leaked := 0 } := by
  simp [parse_cpumask, h]

/-- C7 witness: the empty parsed mask, with and without a modifier
character present. -/
theorem parse_cpumask_zero_weight_w :
    parse_cpumask (some ∅) true 8 {0, 1} =
      { ret := 0, out := some none, leaked := 0 } ∧
    parse_cpumask (some ∅) false 8 {0, 1} =
      { ret := 0, out := some none, leaked := 0 } :=
  ⟨parse_cpumask_zero_weight ∅ true 8 {0, 1} (by decide),
    parse_cpumask_zero_weight ∅ false 8 {0, 1} (by decide)⟩

/-- C8: `get_available_cpus` returns exactly the cardinality of the
supplied mask whenever one is supplied; when the mask is absent it
returns the cardinality of the OS-reported affinity set of the current
thread, and dies through `fatal` if that query fails. -/
theorem get_available_cpus_count :
    (∀ (M : Bitmask) (os : Option Bitmask),
      get_available_cpus (some M) os = CountResult.count M.card) ∧
    (∀ s : Bitmask,
      get_available_cpus none (some s) = CountResult.count s.card) ∧
    get_available_cpus none none =
      CountResult.fatal "sched_getaffinity failed" :=
  ⟨fun _ _ => rfl, fun _ => rfl, rfl⟩

/-- C9: when the string parser returns `NULL`, `parse_cpumask` returns
`-ENOMEM` and never writes through the out-pointer `cpumask` (its
`out` field is `none`: the pointed-to value is untouched). -/
theorem parse_cpumask_enomem (hasModifier : Bool) (max_cpus : ℕ)
    (curmask : Bitmask) :
    parse_cpumask none hasModifier max_cpus curmask =
      { ret := -ENOMEM, out := none, leaked := 0 } :=
  rfl

/-- C10: for a negative thread index that the OS-reported cardinality
`N ≥ 1` does not divide, the C `%` on signed `int`s yields a negative `m`
that the non-negative running count never reaches, so `cpu_for_thread_ua`
takes the warning fallback (returning CPU 0), whatever the set contains
and whatever `max_cpus` is. -/
theorem ua_negative_thread_fallback (cpuset : Bitmask) (max_cpus : ℕ)
    (t : Int) (hN : 1 ≤ CPU_COUNT cpuset) (ht : t < 0)
    (hnd : ¬ ((CPU_COUNT cpuset : Int) ∣ t)) :
    cpu_for_thread_ua t max_cpus cpuset = UaResult.fallback := by
  have hm : t.tmod (CPU_COUNT cpuset : Int) < 0 :=
    tmod_neg_of_neg_not_dvd ht hnd
  simp only [cpu_for_thread_ua]
  rw [if_neg (Nat.cast_ne_zero.mpr (by omega : CPU_COUNT cpuset ≠ 0)),
    scanFromInt_none_of_neg cpuset _ hm max_cpus 0 0 (le_refl 0)]

/-- C10 witness: `cpuset = \x7b0, 1\x7d` (N = 2), `t = -1`, `max_cpus = 4`. -/
theorem ua_negative_thread_fallback_w :
    cpu_for_thread_ua (-1) 4 {0, 1} = UaResult.fallback := by
  have h2 : (CPU_COUNT ({0, 1} : Finset ℕ) : Int) = 2 := by decide
  refine ua_negative_thread_fallback {0, 1} 4 (-1) (by decide) (by decide) ?_
  rw [h2]
  intro hd
  obtain ⟨c, hc⟩ := hd
  omega

end RtNuma
